import Mathlib

/-!
Verification of the DecoDen decomposition-and-normalization core
(`decoden/functions.py`): the NMF mixing-matrix extraction
(`extract_mixing_matrix`, `extract_mixing_matrix_shared_unspecific`),
the chunked signal projection (`extract_signal`), and the HSR
normalizer in its pooled (`run_HSR`) and per-replicate
(`run_HSR_replicates`) variants.

Matrix entries are modelled as rationals.  The routines from external
libraries (scikit-learn factorizations, the pandas sampling order, the
numpy global random stream) are parameters of the embedding, bundled in
the structure `Ext`; their documented shape and sign contracts appear as
hypotheses where a property relies on them.  The real-valued `np.log`
and `np.exp` are abstract function parameters `lg` and `expf`; theorems
that need analytic facts about them (monotonicity, positivity,
`exp (log x) = x` on positives) take those facts as hypotheses, and the
concrete rational pair `lgC`/`expC` below satisfies all of them, so every
such theorem is exercised on executable inputs.  Python exceptions are
modelled by the `PyRes` monad: `ValueError` (raised by
`DataFrame.sample` on oversized requests, by numpy broadcasting, and by
`np.vstack` on an empty list) and the `NameError` raised by a reference
to an unassigned variable.
-/

namespace Decoden

/-- Errors of the Python runtime that the modelled code can raise. -/
inductive PyErr where
  | valueError : PyErr
  | nameError : PyErr
deriving DecidableEq

/-- Result of running a fragment of Python code: a value or a raised error. -/
inductive PyRes (α : Type) where
  | ok : α → PyRes α
  | err : PyErr → PyRes α
deriving DecidableEq

/-- Sequencing of Python statements: an error aborts the rest. -/
def PyRes.bind {α β : Type} : PyRes α → (α → PyRes β) → PyRes β
  | .ok a, f => f a
  | .err e, _ => .err e

instance : Monad PyRes where
  pure := .ok
  bind := PyRes.bind

/-- A pandas DataFrame: row labels, column names, and rows of rational entries. -/
structure DF where
  idx : List String
  cols : List String
  rows : List (List ℚ)
deriving DecidableEq

/-- External numeric routines used by `functions.py` but implemented outside this
repository.  `shuffle` is the pseudo-random row order drawn by
`DataFrame.sample(..., random_state=seed)`; `fitW`/`fitH` are the two factors of
`NMF(n_components=1, ...).fit_transform` on the control block (one entry per
training row, resp. per control column); `propW` is the coefficient row of
`non_negative_factorization(..., init="custom", update_H=False)` on the
transposed treatment block with the signal factor held fixed (one entry per
treatment column); `rank1H` is the coefficient row of the per-condition rank-1
factorization (one entry per column of its block); `project` is the frozen-factor
factorization of one chunk in `extract_signal`, taking the chunk, the random
initial `W`, the fixed mixing-matrix rows and the seed, and returning one output
row per chunk row. -/
structure Ext where
  shuffle : ℕ → List (List ℚ) → List (List ℚ)
  fitW : List (List ℚ) → List ℚ
  fitH : List (List ℚ) → List ℚ
  propW : List (List ℚ) → List ℚ → List ℚ
  rank1H : List (List ℚ) → List ℚ
  project : List (List ℚ) → List (List ℚ) → List (List ℚ) → ℕ → List (List ℚ)

/-- Python `s.startswith(pre)`: the characters of `pre` are an initial segment
of the characters of `s`. -/
def strStarts (s pre : String) : Bool :=
  pre.toList.isPrefixOf s.toList

/-- Positions of the columns whose name satisfies `p` (in column order), as in
the comprehensions over `data_df.columns` in `extract_mixing_matrix`. -/
def colPos (cols : List String) (p : String → Bool) : List ℕ :=
  (List.range cols.length).filter (fun k => p (cols.getD k ""))

/-- Select the columns at positions `ks` from each row (pandas `.loc` with a
name list, with distinct column names). -/
def selectCols (rows : List (List ℚ)) (ks : List ℕ) : List (List ℚ) :=
  rows.map (fun r => ks.map (fun k => r.getD k 0))

/-- Rows in which some control column strictly exceeds the coverage threshold:
the filter `data_df[(data_df[[control columns]] > control_cov_threshold).any(axis=1)]`. -/
def quali (df : DF) (ctrl : String) (τ : ℚ) : List (List ℚ) :=
  df.rows.filter (fun r =>
    (colPos df.cols (fun c => strStarts c ctrl)).any (fun k => decide (τ < r.getD k 0)))

/-- The training subset `dsel.sample(n_train_bins, random_state=seed)`:
`DataFrame.sample` raises `ValueError` when the request exceeds the population
(sampling is without replacement), and otherwise returns `n` of the qualifying
rows in the pseudo-random order `e.shuffle seed`. -/
def trainData (e : Ext) (df : DF) (ctrl : String) (τ : ℚ) (n seed : ℕ) :
    PyRes (List (List ℚ)) :=
  let d := quali df ctrl τ
  if n ≤ d.length then .ok ((e.shuffle seed d).take n) else .err .valueError

/-- The residual after removing the background contribution:
`np.maximum(train_data.values - W_unspec.dot(H_unspec_coefs.reshape(1, -1)), 0)`,
entrywise `max (x - w * b) 0` for training entry `x`, background value `w` of the
row and background coefficient `b` of the column. -/
def specificDataMat (train : List (List ℚ)) (wu bg : List ℚ) : List (List ℚ) :=
  (train.zip wu).map (fun p => p.1.zipWith (fun x b => max (x - p.2 * b) 0) bg)

/-- numpy slice assignment `row[ix : ix+c] = vals`: the left-hand slice is
truncated at the end of the row; the assigned values must match its length
exactly or be a single value (numpy broadcasting); any other length raises
`ValueError`. -/
def setSlice (row : List ℚ) (ix c : ℕ) (vals : List ℚ) : PyRes (List ℚ) :=
  let t := (row.drop ix).take c
  if vals.length = t.length then
    .ok (row.take ix ++ vals ++ row.drop (ix + t.length))
  else if vals.length = 1 then
    .ok (row.take ix ++ List.replicate t.length (vals.headD 0) ++ row.drop (ix + t.length))
  else .err .valueError

/-- Columns `[ix, ix+c)` of each row, truncated at the row end
(numpy `mat[:, ix:ix+c]`). -/
def sliceCols (rows : List (List ℚ)) (ix c : ℕ) : List (List ℚ) :=
  rows.map (fun r => (r.drop ix).take c)

/-- The loop of `extract_mixing_matrix` over the treatment conditions: starting
from column offset `ix`, fit a rank-1 factorization to the residual block of the
next condition's `c` columns and write its coefficient row into a fresh zero row
of width `width` at offset `ix` (each row of `np.zeros((...))` is written exactly
once, so building the row from zeros is the numpy assignment `mixing_matrix[i+1,
ix:ix+c] = H_spec`). -/
def buildSpecRows (e : Ext) (resid : List (List ℚ)) (width : ℕ) :
    ℕ → List ℕ → PyRes (List (List ℚ))
  | _, [] => .ok []
  | ix, c :: cs => do
    let hspec := e.rank1H (sliceCols resid ix c)
    let row ← setSlice (List.replicate width 0) ix c hspec
    let rest ← buildSpecRows e resid width (ix + c) cs
    .ok (row :: rest)

/-- Embedding of `extract_mixing_matrix` (functions.py, lines 8-77): filter bins
by control coverage, sample the training subset, fit the rank-1 background NMF
on the control columns, propagate the background coefficients to the treatment
columns with the background vector held fixed, subtract the background
contribution (clipped at zero), fit one rank-1 factorization per treatment
condition on its positional column slice, and assemble the
`len(conditions_list) x sum(counts)` mixing matrix whose row 0 is the
concatenated background coefficient row.  The final pandas constructor
(`pd.DataFrame(..., columns=train_data.columns)`) raises when the assembled
width disagrees with the number of data columns. -/
def extract_mixing_matrix (e : Ext) (df : DF) (conds : List String)
    (countsRef : String → ℕ) (τ : ℚ) (n seed : ℕ) : PyRes DF := do
  let ctrl := conds.headD ""
  let train ← trainData e df ctrl τ n seed
  let cks := colPos df.cols (fun c => strStarts c ctrl)
  let tks := colPos df.cols (fun c => !strStarts c ctrl)
  let wu := e.fitW (selectCols train cks)
  let hu := e.fitH (selectCols train cks)
  let wt := e.propW (selectCols train tks) wu
  let bg := hu ++ wt
  let resid := specificDataMat train wu bg
  let counts := conds.map countsRef
  let width := counts.sum
  let row0 ← setSlice (List.replicate width 0) 0 width bg
  let rest ← buildSpecRows e resid width (counts.headD 0) counts.tail
  if width = df.cols.length then
    .ok ⟨"unspecific" :: conds.tail, df.cols, row0 :: rest⟩
  else .err .valueError

/-- Embedding of `extract_mixing_matrix_shared_unspecific` (functions.py, lines
80-154): it filters and samples like `extract_mixing_matrix` and fits the
background NMF on the control columns, but everything that would build the
mixing matrix is commented out in the source, and the final `return mm`
references a variable that is never assigned, raising `NameError`. -/
def extract_mixing_matrix_shared_unspecific (e : Ext) (df : DF)
    (conds : List String) (_countsRef : String → ℕ) (τ : ℚ) (n seed : ℕ) :
    PyRes DF := do
  let ctrl := conds.headD ""
  let train ← trainData e df ctrl τ n seed
  let cks := colPos df.cols (fun c => strStarts c ctrl)
  let _wu := e.fitW (selectCols train cks)
  let _hu := e.fitH (selectCols train cks)
  .err .nameError

/-- Consecutive blocks of `cs` rows (generic worker): `acc` holds the current
block reversed, `k` its remaining capacity. -/
def chunkGo (cs : ℕ) : List (List ℚ) → List (List ℚ) → ℕ → List (List (List ℚ))
  | [], acc, _ => [acc.reverse]
  | x :: xs, acc, 0 => acc.reverse :: chunkGo cs xs [x] (cs - 1)
  | x :: xs, acc, k + 1 => chunkGo cs xs (x :: acc) k

/-- The consecutive blocks of at most `cs` rows of `l` (empty for an empty list,
or for step 0 where Python `range` raises). -/
def chunkList (cs : ℕ) (l : List (List ℚ)) : List (List (List ℚ)) :=
  if cs = 0 then []
  else
    match l with
    | [] => []
    | x :: xs => chunkGo cs xs [x] (cs - 1)

/-- Model of `np.split(data_df.values, range(chunk_size, len(data_df)+chunk_size,
chunk_size))`: the cut points are `cs, 2*cs, ...` and the last one is at or past
the end of the array, so the pieces are the consecutive `cs`-row blocks followed
by exactly one empty trailing piece. -/
def npSplit (cs : ℕ) (l : List (List ℚ)) : List (List (List ℚ)) :=
  chunkList cs l ++ [[]]

/-- The chunk loop of `extract_signal`: process chunks in order, `break` at the
first empty chunk. -/
def processChunks (f : ℕ → List (List ℚ) → List (List ℚ)) :
    ℕ → List (List (List ℚ)) → List (List (List ℚ))
  | _, [] => []
  | j, ck :: cks =>
    if ck.length < 1 then [] else f j ck :: processChunks f (j + 1) cks

/-- Embedding of `extract_signal` (functions.py, lines 157-186): split the data
into chunks, and for each non-empty chunk solve the frozen-factor factorization
from a fresh random initialization.  `rngW j` is the draw
`np.random.uniform(0, 0.1, size=(len(ck), len(mmatrix)))` for the j-th chunk: it
comes from the ambient global numpy random state, which is not derived from
`seed`.  `np.vstack` raises `ValueError` on an empty list, and the final pandas
constructor raises when the stacked row count disagrees with the input index. -/
def extract_signal (e : Ext) (rngW : ℕ → List (List ℚ)) (df mm : DF)
    (conds : List String) (cs seed : ℕ) : PyRes DF :=
  let processed :=
    processChunks (fun j ck => e.project ck (rngW j) mm.rows seed) 0 (npSplit cs df.rows)
  if processed.isEmpty then .err .valueError
  else
    let out := processed.flatten
    if out.length = df.idx.length then .ok ⟨df.idx, conds, out⟩ else .err .valueError

/-- Values of the first column named `name` (pandas label lookup `df.loc[:, name]`). -/
def colOf (df : DF) (name : String) : List ℚ :=
  let k := df.cols.findIdx (fun c => c == name)
  df.rows.map (fun r => r.getD k 0)

/-- Log transform with the floor:
`series.apply(lambda x: np.maximum(eps, x)).apply(np.log)`. -/
def transfCol (lg : ℚ → ℚ) (eps : ℚ) (l : List ℚ) : List ℚ :=
  l.map (fun x => lg (max eps x))

/-- numpy boolean-mask selection `series[bl_mask]`. -/
def maskSel (mask : List Bool) (l : List ℚ) : List ℚ :=
  (mask.zip l).filterMap (fun p => if p.1 then some p.2 else none)

/-- Insert into a sorted list (worker for the sort behind `np.median`). -/
def insertOrd (x : ℚ) : List ℚ → List ℚ
  | [] => [x]
  | y :: ys => if x ≤ y then x :: y :: ys else y :: insertOrd x ys

/-- Sort a list of rationals (insertion sort). -/
def sortQ : List ℚ → List ℚ
  | [] => []
  | x :: xs => insertOrd x (sortQ xs)

/-- Model of `np.median`: the middle of the sorted values, or the mean of the two
middle values for an even length. -/
def npMedian (l : List ℚ) : ℚ :=
  let s := sortQ l
  if l.length % 2 = 1 then s.getD (l.length / 2) 0
  else (s.getD (l.length / 2 - 1) 0 + s.getD (l.length / 2) 0) / 2

/-- The double-median filter
`np.where((xm > np.median(xm)) & (ym > np.median(ym)))[0]` over the mask-selected
transformed control (`xm`) and treatment (`ym`) values. -/
def fitIxs (xm ym : List ℚ) : List ℕ :=
  (List.range xm.length).filter
    (fun i => decide (npMedian xm < xm.getD i 0) && decide (npMedian ym < ym.getD i 0))

/-- Sum of products of paired entries. -/
def dotQ (xs ys : List ℚ) : ℚ :=
  (xs.zipWith (· * ·) ys).sum

/-- The coefficient of `LinearRegression(fit_intercept=False)` with a single
feature: the least-squares through-origin slope `Σ x*y / Σ x*x`. -/
def lsqSlope (xs ys : List ℚ) : ℚ :=
  dotQ xs ys / dotQ xs xs

/-- The slope fitted on the subset of bins surviving the double-median filter. -/
def hsrSlope (xm ym : List ℚ) : ℚ :=
  let ixs := fitIxs xm ym
  lsqSlope (ixs.map (fun i => xm.getD i 0)) (ixs.map (fun i => ym.getD i 0))

/-- The clamped prediction for all bins:
`np.maximum(reg.predict(control_transf.values.reshape(-1, 1)), np.log(0.5))`. -/
def logPredCol (lg : ℚ → ℚ) (β : ℚ) (ct : List ℚ) : List ℚ :=
  ct.map (fun x => max (β * x) (lg (1 / 2)))

/-- The two output columns produced for one treatment by the HSR machinery shared
by `run_HSR` and `run_HSR_replicates`: given the transformed control column `ct`
and transformed treatment column `tt`, fit the slope on the double-median-filtered
mask-true bins, clamp the prediction at `log(0.5)`, and return the pair
(`np.exp(treatment_transf - log_pred)`, `np.exp(log_pred)`). -/
def hsrPair (lg expf : ℚ → ℚ) (ct tt : List ℚ) (mask : List Bool) :
    List ℚ × List ℚ :=
  let β := hsrSlope (maskSel mask ct) (maskSel mask tt)
  let lp := logPredCol lg β ct
  (tt.zipWith (fun t p => expf (t - p)) lp, lp.map expf)

/-- Output table of the HSR step: row labels, column names, columns. -/
structure ColTable where
  idx : List String
  names : List String
  cols : List (List ℚ)
deriving DecidableEq

/-- Embedding of `run_HSR` (functions.py, lines 189-225): per treatment
condition, in list order, two output columns named `cond + " HSR Value"` and
`cond + " fit"`. -/
def run_HSR (lg expf : ℚ → ℚ) (wmat : DF) (mask : List Bool)
    (conds : List String) (eps : ℚ) : ColTable :=
  let ct := transfCol lg eps (colOf wmat (conds.headD ""))
  { idx := wmat.idx
    names := (conds.tail.map (fun c => [c ++ " HSR Value", c ++ " fit"])).flatten
    cols := (conds.tail.map (fun c =>
        let p := hsrPair lg expf ct (transfCol lg eps (colOf wmat c)) mask
        [p.1, p.2])).flatten }

/-- The per-replicate specific signal of `run_HSR_replicates`:
`(sample_data - tissue_coef * tissue_signal).clip(eps, None)`. -/
def repSpecific (eps : ℚ) (sample tissue : List ℚ) (coef : ℚ) : List ℚ :=
  sample.zipWith (fun d t => max eps (d - coef * t)) tissue

/-- The treatment replicate columns: `[c for c in replicates.columns if not
c.startswith(control_condition)]`. -/
def treatColsOf (reps : DF) (ctrl : String) : List String :=
  reps.cols.filter (fun c => !strStarts c ctrl)

/-- The transformed per-replicate signal fed into the regression of
`run_HSR_replicates` for the treatment column at position `i` named `name`:
`tissue_coef = mmat.iloc[0, i + n_control_samples]`, then the clipped specific
signal under `np.log`. -/
def repTransf (lg : ℚ → ℚ) (reps wmat mmat : DF) (ctrl : String)
    (nCtrl : ℕ) (eps : ℚ) (i : ℕ) (name : String) : List ℚ :=
  (repSpecific eps (colOf reps name) (colOf wmat ctrl)
    ((mmat.rows.getD 0 []).getD (i + nCtrl) 0)).map lg

/-- Embedding of `run_HSR_replicates` (functions.py, lines 228-280): per
treatment replicate column, subtract the scaled control signal, clip at `eps`,
log-transform, and apply the shared HSR machinery against the transformed
control column. -/
def run_HSR_replicates (lg expf : ℚ → ℚ) (reps wmat mmat : DF)
    (mask : List Bool) (conds : List String) (countsRef : String → ℕ)
    (eps : ℚ) : ColTable :=
  let ctrl := conds.headD ""
  let nCtrl := countsRef ctrl
  let ct := transfCol lg eps (colOf wmat ctrl)
  let tcols := treatColsOf reps ctrl
  { idx := wmat.idx
    names := (tcols.map (fun c => [c ++ " HSR Value", c ++ " fit"])).flatten
    cols := (tcols.enum.map (fun p =>
        let tt := repTransf lg reps wmat mmat ctrl nCtrl eps p.1 p.2
        let q := hsrPair lg expf ct tt mask
        [q.1, q.2])).flatten }

/-- Concrete rational stand-in for `np.exp`: a strictly increasing bijection
from the rationals onto the positive rationals. -/
def expC (q : ℚ) : ℚ :=
  if 0 ≤ q then q + 1 else 1 / (1 - q)

/-- Concrete rational stand-in for `np.log`: the inverse of `expC` on the
positive rationals. -/
def lgC (q : ℚ) : ℚ :=
  if 1 ≤ q then q - 1 else 1 - 1 / q

/-- A concrete instantiation of the external routines, used to exercise the
theorems on executable inputs: identity sampling order, all-ones factorization
coefficients, identity projection. -/
def extTest : Ext where
  shuffle := fun _ l => l
  fitW := fun b => b.map (fun _ => 1)
  fitH := fun b => (b.headD []).map (fun _ => 1)
  propW := fun b _ => (b.headD []).map (fun _ => 1)
  rank1H := fun b => (b.headD []).map (fun _ => 1)
  project := fun ck _ _ _ => ck

/-- A projection whose output depends on the random initialization `w` (as the
output of the multiplicative-update solver does): every entry is floored at the
first drawn value. -/
def extRng : Ext :=
  { extTest with
    project := fun ck w _ _ => ck.map (fun r => r.map (fun x => max x ((w.headD []).headD 0))) }

/-- A two-bin, two-sample coverage matrix (control column first). -/
def dfTest : DF := ⟨["b1", "b2"], ["ctrl_1", "t_1"], [[2, 3], [4, 5]]⟩

/-- One replicate per condition. -/
def cfTest : String → ℕ := fun _ => 1

/-- The mixing matrix `extract_mixing_matrix` returns on `dfTest` under `extTest`. -/
def mmTest : DF := ⟨["unspecific", "t"], ["ctrl_1", "t_1"], [[1, 1], [0, 1]]⟩

/-- A two-bin signal matrix for the HSR variants. -/
def wTest : DF := ⟨["b1", "b2"], ["ctrl", "t"], [[2, 3], [4, 5]]⟩

/-- The specification's description (spec 4.8) of the per-replicate specific
signal: the replicate's original coverage column, minus the control signal
column scaled by that replicate's own background coefficient -- row 0 of the
mixing matrix at the replicate's column position offset by the number of
control samples -- clipped from below at epsilon. -/
def repSpecificSpec (eps : ℚ) (reps wmat mmat : DF) (ctrl : String)
    (nCtrl i : ℕ) (name : String) : List ℚ :=
  let coef := (mmat.rows.headD []).getD (nCtrl + i) 0
  ((colOf reps name).zip (colOf wmat ctrl)).map (fun p => max (p.1 - coef * p.2) eps)

/-! Helper lemmas. -/

@[simp]
lemma pyBind_ok {α β : Type} (a : α) (f : α → PyRes β) :
    (PyRes.ok a : PyRes α) >>= f = f a := rfl

@[simp]
lemma pyBind_err {α β : Type} (er : PyErr) (f : α → PyRes β) :
    (PyRes.err er : PyRes α) >>= f = .err er := rfl

lemma trainData_of_le {e : Ext} {df : DF} {ctrl : String} {τ : ℚ} {n seed : ℕ}
    (h : n ≤ (quali df ctrl τ).length) :
    trainData e df ctrl τ n seed = .ok ((e.shuffle seed (quali df ctrl τ)).take n) := by
  simp [trainData, h]

lemma trainData_of_lt {e : Ext} {df : DF} {ctrl : String} {τ : ℚ} {n seed : ℕ}
    (h : (quali df ctrl τ).length < n) :
    trainData e df ctrl τ n seed = .err .valueError := by
  have h' : ¬ n ≤ (quali df ctrl τ).length := by omega
  simp [trainData, h']

/-! Claim C3. -/

/-- Claim C3: whenever fewer bins than `n_train_bins` pass the control-coverage
filter, `extract_mixing_matrix` raises the sampling `ValueError` (for every
choice of the external factorization routines, so no factorization output is
involved and no undersized training set is returned); and whenever at least
`n_train_bins` bins qualify, the sampled training matrix has exactly
`n_train_bins` rows which keep all sample columns. -/
theorem spec_C3_insufficient_training (e : Ext) (df : DF) (c₀ : String)
    (ts : List String) (countsRef : String → ℕ) (τ : ℚ) (n seed : ℕ)
    (hperm : ∀ s l, (e.shuffle s l).Perm l)
    (hwf : ∀ r ∈ df.rows, r.length = df.cols.length) :
    ((quali df c₀ τ).length < n →
      extract_mixing_matrix e df (c₀ :: ts) countsRef τ n seed = .err .valueError) ∧
    (n ≤ (quali df c₀ τ).length →
      ∃ t, trainData e df c₀ τ n seed = .ok t ∧ t.length = n ∧
        ∀ r ∈ t, r.length = df.cols.length) := by
  constructor
  · intro hlt
    simp only [extract_mixing_matrix, List.headD_cons]
    rw [trainData_of_lt hlt]
    rfl
  · intro hle
    refine ⟨(e.shuffle seed (quali df c₀ τ)).take n, trainData_of_le hle, ?_, ?_⟩
    · rw [List.length_take, (hperm seed (quali df c₀ τ)).length_eq]
      omega
    · intro r hr
      have hr₁ : r ∈ e.shuffle seed (quali df c₀ τ) := List.mem_of_mem_take hr
      have hr₂ : r ∈ quali df c₀ τ := (hperm seed (quali df c₀ τ)).mem_iff.mp hr₁
      exact hwf r (List.mem_of_mem_filter hr₂)

/-- Witness for C3: on the concrete two-bin input with both bins qualifying, a
request for one training bin succeeds with exactly one full-width row. -/
theorem spec_C3_witness :
    1 ≤ (quali dfTest "ctrl" 1).length ∧
    ∃ t, trainData extTest dfTest "ctrl" 1 1 0 = .ok t ∧ t.length = 1 ∧
      ∀ r ∈ t, r.length = dfTest.cols.length :=
  ⟨by decide,
    (spec_C3_insufficient_training extTest dfTest "ctrl" ["t"] cfTest 1 1 0
      (fun _ l => List.Perm.refl l) (by decide)).2 (by decide)⟩

lemma setSlice_ok_length {row vals r : List ℚ} {ix c : ℕ}
    (h : setSlice row ix c vals = .ok r) : r.length = row.length := by
  simp only [setSlice] at h
  split_ifs at h with h1 h2
  · injection h with h'
    subst h'
    simp only [List.length_append, List.length_take, List.length_drop] at h1 ⊢
    omega
  · injection h with h'
    subst h'
    simp only [List.length_append, List.length_take, List.length_drop,
      List.length_replicate] at h1 ⊢
    omega

lemma rep_middle_getD {a b : ℕ} (B : List ℚ) (k : ℕ)
    (hk : k < a ∨ a + B.length ≤ k) :
    (List.replicate a (0 : ℚ) ++ B ++ List.replicate b 0).getD k 0 = 0 := by
  rw [List.append_assoc, List.getD_eq_getElem?_getD, List.getElem?_append]
  rcases hk with hk | hk
  · simp [List.length_replicate, hk, List.getElem?_replicate]
  · have ha : ¬ k < (List.replicate a (0 : ℚ)).length := by
      simp only [List.length_replicate]; omega
    rw [if_neg ha, List.getElem?_append]
    have hb : ¬ k - (List.replicate a (0 : ℚ)).length < B.length := by
      simp only [List.length_replicate]; omega
    rw [if_neg hb, List.getElem?_replicate]
    split <;> simp

lemma setSlice_zeros_outside {w ix c : ℕ} {vals r : List ℚ}
    (h : setSlice (List.replicate w 0) ix c vals = .ok r) :
    ∀ k, (k < ix ∨ ix + c ≤ k) → r.getD k 0 = 0 := by
  simp only [setSlice] at h
  split_ifs at h with h1 h2
  · injection h with h'
    subst h'
    simp only [List.length_take, List.length_drop, List.length_replicate] at h1
    intro k hk
    simp only [List.drop_replicate, List.take_replicate, List.length_replicate]
    exact rep_middle_getD vals k (by omega)
  · injection h with h'
    subst h'
    intro k hk
    simp only [List.drop_replicate, List.take_replicate, List.length_replicate]
    exact rep_middle_getD _ k (by simp only [List.length_replicate]; omega)

lemma buildSpecRows_ok {e : Ext} {resid : List (List ℚ)} {width : ℕ} :
    ∀ (cs : List ℕ) (ix : ℕ) (rows : List (List ℚ)),
      buildSpecRows e resid width ix cs = .ok rows →
      rows.length = cs.length ∧
      (∀ r ∈ rows, r.length = width) ∧
      (∀ j, j < cs.length → ∀ k,
        (k < ix + (cs.take j).sum ∨ ix + (cs.take j).sum + cs.getD j 0 ≤ k) →
        (rows.getD j []).getD k 0 = 0) := by
  intro cs
  induction cs with
  | nil =>
    intro ix rows h
    simp only [buildSpecRows] at h
    injection h with h'
    subst h'
    refine ⟨rfl, by simp, ?_⟩
    intro j hj
    simp at hj
  | cons c cs ih =>
    intro ix rows h
    simp only [buildSpecRows] at h
    cases hs : setSlice (List.replicate width 0) ix c (e.rank1H (sliceCols resid ix c)) with
    | err er => rw [hs] at h; simp only [pyBind_err] at h; cases h
    | ok row =>
      rw [hs] at h
      simp only [pyBind_ok] at h
      cases hrest : buildSpecRows e resid width (ix + c) cs with
      | err er => rw [hrest] at h; simp only [pyBind_err] at h; cases h
      | ok rest =>
        rw [hrest] at h
        simp only [pyBind_ok] at h
        injection h with h'
        subst h'
        obtain ⟨ihlen, ihwidth, ihsupp⟩ := ih (ix + c) rest hrest
        refine ⟨by simp [ihlen], ?_, ?_⟩
        · intro r hr
          rcases List.mem_cons.mp hr with hr | hr
          · subst hr
            simpa using setSlice_ok_length hs
          · exact ihwidth r hr
        · intro j hj k hk
          cases j with
          | zero =>
            simp only [List.getD_cons_zero]
            refine setSlice_zeros_outside hs k ?_
            simp only [List.take_zero, List.sum_nil, List.getD_cons_zero] at hk
            omega
          | succ j' =>
            simp only [List.getD_cons_succ]
            refine ihsupp j' (by simpa using hj) k ?_
            simp only [List.take_succ_cons, List.sum_cons, List.getD_cons_succ] at hk
            omega

/-! Claim C1. -/

/-- Claim C1: whenever `extract_mixing_matrix` returns a mixing matrix on a
valid input (control condition first, per-condition replicate counts summing to
the number of sample columns), that matrix has exactly `len(conditions_list)`
rows and total-sample-count columns, and the specific row `i + 1` of each
treatment condition `i` is exactly zero outside that condition's contiguous
column slice `[count(control) + sum of earlier treatment counts, + count(i))`. -/
theorem spec_C1_mixing_matrix_shape (e : Ext) (df : DF) (c₀ : String)
    (ts : List String) (countsRef : String → ℕ) (τ : ℚ) (n seed : ℕ) (mm : DF)
    (hok : extract_mixing_matrix e df (c₀ :: ts) countsRef τ n seed = .ok mm)
    (hsum : ((c₀ :: ts).map countsRef).sum = df.cols.length) :
    mm.rows.length = (c₀ :: ts).length ∧
    (∀ r ∈ mm.rows, r.length = df.cols.length) ∧
    (∀ i, i < ts.length → ∀ k,
      (k < countsRef c₀ + ((ts.take i).map countsRef).sum ∨
        countsRef c₀ + ((ts.take i).map countsRef).sum + countsRef (ts.getD i "") ≤ k) →
      (mm.rows.getD (i + 1) []).getD k 0 = 0) := by
  simp only [extract_mixing_matrix, List.headD_cons] at hok
  cases htr : trainData e df c₀ τ n seed with
  | err er => rw [htr] at hok; simp only [pyBind_err] at hok; cases hok
  | ok train =>
    rw [htr] at hok
    simp only [pyBind_ok, List.map_cons, List.sum_cons, List.tail_cons,
      List.headD_cons] at hok
    cases hrow0 : setSlice (List.replicate (countsRef c₀ + (ts.map countsRef).sum) 0) 0
        (countsRef c₀ + (ts.map countsRef).sum)
        (e.fitH (selectCols train (colPos df.cols fun c => strStarts c c₀)) ++
          e.propW (selectCols train (colPos df.cols fun c => !strStarts c c₀))
            (e.fitW (selectCols train (colPos df.cols fun c => strStarts c c₀)))) with
    | err er => rw [hrow0] at hok; simp only [pyBind_err] at hok; cases hok
    | ok row0 =>
      rw [hrow0] at hok
      simp only [pyBind_ok] at hok
      cases hrest : buildSpecRows e
          (specificDataMat train
            (e.fitW (selectCols train (colPos df.cols fun c => strStarts c c₀)))
            (e.fitH (selectCols train (colPos df.cols fun c => strStarts c c₀)) ++
              e.propW (selectCols train (colPos df.cols fun c => !strStarts c c₀))
                (e.fitW (selectCols train (colPos df.cols fun c => strStarts c c₀)))))
          (countsRef c₀ + (ts.map countsRef).sum) (countsRef c₀) (ts.map countsRef) with
      | err er => rw [hrest] at hok; simp only [pyBind_err] at hok; cases hok
      | ok rest =>
        rw [hrest] at hok
        simp only [pyBind_ok] at hok
        simp only [List.map_cons, List.sum_cons] at hsum
        rw [if_pos hsum] at hok
        injection hok with h'
        subst h'
        obtain ⟨hlen, hwidth, hsupp⟩ := buildSpecRows_ok (ts.map countsRef) (countsRef c₀) rest hrest
        refine ⟨?_, ?_, ?_⟩
        · simp [hlen]
        · intro r hr
          rcases List.mem_cons.mp hr with hr | hr
          · subst hr
            have := setSlice_ok_length hrow0
            simpa [hsum] using this
          · rw [← hsum]
            exact hwidth r hr
        · intro i hi k hk
          simp only [List.getD_cons_succ]
          refine hsupp i (by simpa using hi) k ?_
          have h1 : ((ts.map countsRef).take i).sum = ((ts.take i).map countsRef).sum := by
            rw [List.map_take]
          have h2 : (ts.map countsRef).getD i 0 = countsRef (ts.getD i "") := by
            have hi' : i < (ts.map countsRef).length := by simpa using hi
            rw [List.getD_eq_getElem _ _ hi', List.getD_eq_getElem _ _ hi, List.getElem_map]
          rw [h1, h2]
          omega

/-- Witness for C1: the concrete run on `dfTest` returns `mmTest`, which has two
rows, full-width rows, and a zero entry outside the treatment slice. -/
theorem spec_C1_witness :
    extract_mixing_matrix extTest dfTest ["ctrl", "t"] cfTest 1 1 0 = .ok mmTest ∧
    (mmTest.rows.length = (["ctrl", "t"] : List String).length ∧
      (∀ r ∈ mmTest.rows, r.length = dfTest.cols.length) ∧
      (∀ i, i < (["t"] : List String).length → ∀ k,
        (k < cfTest "ctrl" + (((["t"] : List String).take i).map cfTest).sum ∨
          cfTest "ctrl" + (((["t"] : List String).take i).map cfTest).sum +
            cfTest ((["t"] : List String).getD i "") ≤ k) →
        ((mmTest.rows.getD (i + 1) []).getD k 0 = 0))) :=
  ⟨by decide,
    spec_C1_mixing_matrix_shape extTest dfTest "ctrl" ["t"] cfTest 1 1 0 mmTest
      (by decide) (by decide)⟩

lemma length_filter_add {α : Type} (p : α → Bool) (l : List α) :
    (l.filter p).length + (l.filter (fun a => !p a)).length = l.length := by
  induction l with
  | nil => rfl
  | cons x xs ih =>
    by_cases hx : p x = true
    · simp only [List.filter_cons, hx, if_pos, Bool.not_true, List.length_cons]
      simp only [Bool.false_eq_true, if_false]
      omega
    · simp only [List.filter_cons, hx, Bool.not_eq_true] at *
      simp only [hx, Bool.not_false, if_true, Bool.false_eq_true, if_false, List.length_cons]
      omega

lemma setSlice_replicate_ok (w ix c : ℕ) (vals : List ℚ)
    (h : vals.length = min c (w - ix)) :
    ∃ r, setSlice (List.replicate w 0) ix c vals = .ok r := by
  have hc : vals.length = (((List.replicate w (0 : ℚ)).drop ix).take c).length := by
    simp only [List.length_take, List.length_drop, List.length_replicate]
    exact h
  exact ⟨_, by simp only [setSlice]; rw [if_pos hc]⟩

lemma buildSpecRows_total {e : Ext} {resid : List (List ℚ)} {width : ℕ}
    (hres : resid ≠ []) (hreswf : ∀ r ∈ resid, r.length = width)
    (hrk : ∀ b w, b ≠ [] → (∀ r ∈ b, r.length = w) → (e.rank1H b).length = w) :
    ∀ (cs : List ℕ) (ix : ℕ), ix + cs.sum ≤ width →
      ∃ rows, buildSpecRows e resid width ix cs = .ok rows := by
  intro cs
  induction cs with
  | nil => exact fun ix _ => ⟨[], rfl⟩
  | cons c cs ih =>
    intro ix hix
    simp only [List.sum_cons] at hix
    have hble : ∀ r ∈ sliceCols resid ix c, r.length = c := by
      intro r hr
      simp only [sliceCols, List.mem_map] at hr
      obtain ⟨r₀, hr₀, rfl⟩ := hr
      simp only [List.length_take, List.length_drop, hreswf r₀ hr₀]
      omega
    have hbne : sliceCols resid ix c ≠ [] := by
      simp only [sliceCols]
      exact fun hcon => hres (List.map_eq_nil_iff.mp hcon)
    have hlenH : (e.rank1H (sliceCols resid ix c)).length = c := hrk _ c hbne hble
    obtain ⟨row, hrow⟩ := setSlice_replicate_ok width ix c
      (e.rank1H (sliceCols resid ix c)) (by rw [hlenH]; omega)
    obtain ⟨rest, hrest⟩ := ih (ix + c) (by omega)
    refine ⟨row :: rest, ?_⟩
    simp only [buildSpecRows]
    rw [hrow]
    simp only [pyBind_ok]
    rw [hrest]
    simp only [pyBind_ok]

/-! Claim C8. -/

/-- Claim C8 (amended): `extract_mixing_matrix` performs no validation of the
conditions list, counts, or column ordering against the coverage matrix's
layout.  Whenever the sampling step succeeds, the per-condition counts sum to
the number of columns, and the external factorizations return their documented
shapes, the function returns a mixing matrix normally -- with no hypothesis at
all about the columns being grouped in conditions-list order, so a grouping
mismatch is never detected and positional slicing silently misattributes
columns. -/
theorem spec_C8_no_layout_check (e : Ext) (df : DF) (c₀ : String) (ts : List String)
    (countsRef : String → ℕ) (τ : ℚ) (n seed : ℕ)
    (hperm : ∀ s l, (e.shuffle s l).Perm l)
    (hwf : ∀ r ∈ df.rows, r.length = df.cols.length)
    (hn : 1 ≤ n) (hq : n ≤ (quali df c₀ τ).length)
    (hsum : ((c₀ :: ts).map countsRef).sum = df.cols.length)
    (hfW : ∀ b, (e.fitW b).length = b.length)
    (hfH : ∀ b w, b ≠ [] → (∀ r ∈ b, r.length = w) → (e.fitH b).length = w)
    (hpW : ∀ b wv w, b ≠ [] → (∀ r ∈ b, r.length = w) → (e.propW b wv).length = w)
    (hrk : ∀ b w, b ≠ [] → (∀ r ∈ b, r.length = w) → (e.rank1H b).length = w) :
    ∃ mm, extract_mixing_matrix e df (c₀ :: ts) countsRef τ n seed = .ok mm := by
  simp only [List.map_cons, List.sum_cons] at hsum
  -- the sampled training matrix
  have hTlen : ((e.shuffle seed (quali df c₀ τ)).take n).length = n := by
    rw [List.length_take, (hperm seed (quali df c₀ τ)).length_eq]
    omega
  have hTne : (e.shuffle seed (quali df c₀ τ)).take n ≠ [] := by
    intro hcon
    rw [hcon] at hTlen
    simp at hTlen
    omega
  have hTwf : ∀ r ∈ (e.shuffle seed (quali df c₀ τ)).take n, r.length = df.cols.length := by
    intro r hr
    exact hwf r (List.mem_of_mem_filter
      ((hperm seed (quali df c₀ τ)).mem_iff.mp (List.mem_of_mem_take hr)))
  -- the two column groups cover all columns
  have hpart : (colPos df.cols (fun c => strStarts c c₀)).length +
      (colPos df.cols (fun c => !strStarts c c₀)).length = df.cols.length := by
    have := length_filter_add (fun k => strStarts (df.cols.getD k "") c₀)
      (List.range df.cols.length)
    simpa [colPos, List.length_range] using this
  -- shapes of the blocks and of the background coefficient row
  have hselne : ∀ ks : List ℕ, selectCols ((e.shuffle seed (quali df c₀ τ)).take n) ks ≠ [] := by
    intro ks hcon
    exact hTne (List.map_eq_nil_iff.mp hcon)
  have hselwf : ∀ ks : List ℕ,
      ∀ r ∈ selectCols ((e.shuffle seed (quali df c₀ τ)).take n) ks, r.length = ks.length := by
    intro ks r hr
    simp only [selectCols, List.mem_map] at hr
    obtain ⟨r₀, _, rfl⟩ := hr
    simp
  have hbg : (e.fitH (selectCols ((e.shuffle seed (quali df c₀ τ)).take n)
        (colPos df.cols fun c => strStarts c c₀)) ++
      e.propW (selectCols ((e.shuffle seed (quali df c₀ τ)).take n)
        (colPos df.cols fun c => !strStarts c c₀))
        (e.fitW (selectCols ((e.shuffle seed (quali df c₀ τ)).take n)
          (colPos df.cols fun c => strStarts c c₀)))).length = df.cols.length := by
    rw [List.length_append,
      hfH _ _ (hselne _) (hselwf _),
      hpW _ _ _ (hselne _) (hselwf _)]
    exact hpart
  -- the residual matrix is nonempty with full-width rows
  have hreslen : (specificDataMat ((e.shuffle seed (quali df c₀ τ)).take n)
      (e.fitW (selectCols ((e.shuffle seed (quali df c₀ τ)).take n)
        (colPos df.cols fun c => strStarts c c₀)))
      (e.fitH (selectCols ((e.shuffle seed (quali df c₀ τ)).take n)
        (colPos df.cols fun c => strStarts c c₀)) ++
        e.propW (selectCols ((e.shuffle seed (quali df c₀ τ)).take n)
          (colPos df.cols fun c => !strStarts c c₀))
          (e.fitW (selectCols ((e.shuffle seed (quali df c₀ τ)).take n)
            (colPos df.cols fun c => strStarts c c₀))))).length = n := by
    simp only [specificDataMat, List.length_map, List.length_zip, hTlen,
      hfW, selectCols, List.length_map]
    omega
  have hresne : specificDataMat ((e.shuffle seed (quali df c₀ τ)).take n)
      (e.fitW (selectCols ((e.shuffle seed (quali df c₀ τ)).take n)
        (colPos df.cols fun c => strStarts c c₀)))
      (e.fitH (selectCols ((e.shuffle seed (quali df c₀ τ)).take n)
        (colPos df.cols fun c => strStarts c c₀)) ++
        e.propW (selectCols ((e.shuffle seed (quali df c₀ τ)).take n)
          (colPos df.cols fun c => !strStarts c c₀))
          (e.fitW (selectCols ((e.shuffle seed (quali df c₀ τ)).take n)
            (colPos df.cols fun c => strStarts c c₀)))) ≠ [] := by
    intro hcon
    rw [hcon] at hreslen
    simp at hreslen
    omega
  have hreswf : ∀ r ∈ specificDataMat ((e.shuffle seed (quali df c₀ τ)).take n)
      (e.fitW (selectCols ((e.shuffle seed (quali df c₀ τ)).take n)
        (colPos df.cols fun c => strStarts c c₀)))
      (e.fitH (selectCols ((e.shuffle seed (quali df c₀ τ)).take n)
        (colPos df.cols fun c => strStarts c c₀)) ++
        e.propW (selectCols ((e.shuffle seed (quali df c₀ τ)).take n)
          (colPos df.cols fun c => !strStarts c c₀))
          (e.fitW (selectCols ((e.shuffle seed (quali df c₀ τ)).take n)
            (colPos df.cols fun c => strStarts c c₀)))),
      r.length = countsRef c₀ + (ts.map countsRef).sum := by
    intro r hr
    simp only [specificDataMat, List.mem_map] at hr
    obtain ⟨p, hp, rfl⟩ := hr
    have hp₁ : p.1 ∈ (e.shuffle seed (quali df c₀ τ)).take n := (List.of_mem_zip hp).1
    rw [List.length_zipWith, hTwf p.1 hp₁, hbg, hsum]
    omega
  -- assemble the run
  obtain ⟨row0, hrow0⟩ := setSlice_replicate_ok
    (countsRef c₀ + (ts.map countsRef).sum) 0
    (countsRef c₀ + (ts.map countsRef).sum)
    (e.fitH (selectCols ((e.shuffle seed (quali df c₀ τ)).take n)
        (colPos df.cols fun c => strStarts c c₀)) ++
      e.propW (selectCols ((e.shuffle seed (quali df c₀ τ)).take n)
        (colPos df.cols fun c => !strStarts c c₀))
        (e.fitW (selectCols ((e.shuffle seed (quali df c₀ τ)).take n)
          (colPos df.cols fun c => strStarts c c₀))))
    (by rw [hbg, hsum]; omega)
  obtain ⟨rest, hrest⟩ := buildSpecRows_total hresne hreswf hrk (ts.map countsRef)
    (countsRef c₀) (by omega)
  refine ⟨⟨"unspecific" :: ts, df.cols, row0 :: rest⟩, ?_⟩
  simp only [extract_mixing_matrix, List.headD_cons]
  rw [trainData_of_le hq]
  simp only [pyBind_ok, List.map_cons, List.sum_cons, List.tail_cons, List.headD_cons]
  rw [hrow0]
  simp only [pyBind_ok]
  rw [hrest]
  simp only [pyBind_ok]
  rw [if_pos hsum]

/-- Witness for C8: the amended theorem applied to a concrete coverage matrix
whose columns are not grouped in conditions-list order (treatment column before
the control column): the run still returns normally. -/
theorem spec_C8_witness :
    1 ≤ (quali (DF.mk ["b1"] ["t_1", "ctrl_1"] [[5, 5]]) "ctrl" 0).length ∧
    ∃ mm, extract_mixing_matrix extTest (DF.mk ["b1"] ["t_1", "ctrl_1"] [[5, 5]])
      ["ctrl", "t"] (fun _ => 1) 0 1 0 = .ok mm :=
  ⟨by decide,
    spec_C8_no_layout_check extTest (DF.mk ["b1"] ["t_1", "ctrl_1"] [[5, 5]]) "ctrl" ["t"]
      (fun _ => 1) 0 1 0 (fun _ l => List.Perm.refl l) (by decide) (by decide) (by decide)
      (by decide) (fun b => by simp [extTest])
      (fun b w hb hw => by
        simp only [extTest]
        cases b with
        | nil => exact absurd rfl hb
        | cons r rs => simp [hw r (List.mem_cons_self r rs)])
      (fun b wv w hb hw => by
        simp only [extTest]
        cases b with
        | nil => exact absurd rfl hb
        | cons r rs => simp [hw r (List.mem_cons_self r rs)])
      (fun b w hb hw => by
        simp only [extTest]
        cases b with
        | nil => exact absurd rfl hb
        | cons r rs => simp [hw r (List.mem_cons_self r rs)])⟩

/-- Counterexample for C8 as stated: on a coverage matrix whose column layout
disagrees with the conditions-list order (the control column is last, yet the
positional slice for the treatment condition is taken after the declared control
count), the pipeline does not fail at all -- it returns a mixing matrix built by
silently misattributed positional slicing. -/
theorem spec_C8_counterexample :
    extract_mixing_matrix extTest (DF.mk ["b1"] ["t_1", "ctrl_1"] [[5, 5]])
        ["ctrl", "t"] (fun _ => 1) 0 1 0
      = .ok (DF.mk ["unspecific", "t"] ["t_1", "ctrl_1"] [[1, 1], [0, 1]]) := by
  decide

/-! Claim C10. -/

/-- Claim C10 (amended): `extract_mixing_matrix_shared_unspecific` never returns
a value; whenever the preliminary sampling step succeeds, it raises the
`NameError` of the unassigned variable `mm` in its `return` statement.  (Inputs
on which the sampling step itself fails raise that step's `ValueError`
instead.) -/
theorem spec_C10_never_returns (e : Ext) (df : DF) (c₀ : String)
    (ts : List String) (countsRef : String → ℕ) (τ : ℚ) (n seed : ℕ) :
    (∀ mm, extract_mixing_matrix_shared_unspecific e df (c₀ :: ts) countsRef τ n seed ≠ .ok mm) ∧
    (n ≤ (quali df c₀ τ).length →
      extract_mixing_matrix_shared_unspecific e df (c₀ :: ts) countsRef τ n seed = .err .nameError) := by
  have hmain : ∀ h : n ≤ (quali df c₀ τ).length,
      extract_mixing_matrix_shared_unspecific e df (c₀ :: ts) countsRef τ n seed = .err .nameError := by
    intro h
    simp only [extract_mixing_matrix_shared_unspecific, List.headD_cons]
    rw [trainData_of_le h]
    rfl
  constructor
  · intro mm
    rcases le_or_lt n (quali df c₀ τ).length with h | h
    · rw [hmain h]; intro hc; cases hc
    · simp only [extract_mixing_matrix_shared_unspecific, List.headD_cons]
      rw [trainData_of_lt h]
      intro hc; cases hc
  · exact hmain

/-- Witness for C10: on the concrete input with both bins qualifying, the
function raises `NameError`. -/
theorem spec_C10_witness :
    1 ≤ (quali dfTest "ctrl" 1).length ∧
    extract_mixing_matrix_shared_unspecific extTest dfTest ["ctrl", "t"] cfTest 1 1 0 = .err .nameError :=
  ⟨by decide,
    (spec_C10_never_returns extTest dfTest "ctrl" ["t"] cfTest 1 1 0).2 (by decide)⟩

/-- Counterexample for C10 as stated: on an input whose bins all fail the
control-coverage filter, the function raises the sampling `ValueError`, not a
`NameError`. -/
theorem spec_C10_counterexample :
    extract_mixing_matrix_shared_unspecific extTest
        (DF.mk ["b1"] ["ctrl_1", "t_1"] [[0, 0]]) ["ctrl", "t"] (fun _ => 1) 1 1 0
      = .err .valueError ∧ PyErr.valueError ≠ PyErr.nameError := by
  constructor
  · decide
  · decide

lemma chunkGo_flatten (cs : ℕ) : ∀ (l acc : List (List ℚ)) (k : ℕ),
    (chunkGo cs l acc k).flatten = acc.reverse ++ l := by
  intro l
  induction l with
  | nil => intro acc k; simp [chunkGo]
  | cons x xs ih =>
    intro acc k
    cases k with
    | zero => simp [chunkGo, ih]
    | succ k' => simp [chunkGo, ih]

lemma chunkGo_ne_nil (cs : ℕ) : ∀ (l acc : List (List ℚ)) (k : ℕ), acc ≠ [] →
    ∀ b ∈ chunkGo cs l acc k, b ≠ [] := by
  intro l
  induction l with
  | nil =>
    intro acc k hacc b hb
    simp only [chunkGo, List.mem_singleton] at hb
    subst hb
    simpa using hacc
  | cons x xs ih =>
    intro acc k hacc b hb
    cases k with
    | zero =>
      simp only [chunkGo, List.mem_cons] at hb
      rcases hb with rfl | hb
      · simpa using hacc
      · exact ih [x] (cs - 1) (by simp) b hb
    | succ k' =>
      simp only [chunkGo] at hb
      exact ih (x :: acc) k' (by simp) b hb

lemma chunkList_facts (cs : ℕ) (l : List (List ℚ)) (hcs : 1 ≤ cs) :
    (chunkList cs l).flatten = l ∧ ∀ b ∈ chunkList cs l, b ≠ [] := by
  unfold chunkList
  rw [if_neg (by omega : ¬ cs = 0)]
  cases l with
  | nil => simp
  | cons x xs =>
    constructor
    · rw [chunkGo_flatten]
      simp
    · exact chunkGo_ne_nil cs xs [x] (cs - 1) (by simp)

lemma processChunks_append_empty (f : ℕ → List (List ℚ) → List (List ℚ))
    (hf : ∀ j ck, (f j ck).length = ck.length) :
    ∀ (cks : List (List (List ℚ))) (j : ℕ), (∀ b ∈ cks, b ≠ []) →
      (processChunks f j (cks ++ [[]])).flatten.length = cks.flatten.length ∧
      ∀ b ∈ processChunks f j (cks ++ [[]]), b ≠ [] := by
  intro cks
  induction cks with
  | nil =>
    intro j _
    simp [processChunks]
  | cons c cks ih =>
    intro j hne
    have hc : ¬ c.length < 1 := by
      have hcne := hne c (List.mem_cons_self c cks)
      cases c with
      | nil => exact absurd rfl hcne
      | cons a as => simp
    simp only [List.cons_append, processChunks, if_neg hc]
    obtain ⟨ih1, ih2⟩ := ih (j + 1) (fun b hb => hne b (List.mem_cons_of_mem c hb))
    constructor
    · simp only [List.flatten_cons, List.length_append, hf, List.append_eq] at ih1 ⊢
      omega
    · intro b hb
      rcases List.mem_cons.mp hb with rfl | hb
      · intro hcon
        have hl := hf j c
        rw [hcon] at hl
        simp only [List.length_nil] at hl
        omega
      · exact ih2 b hb

/-! Claim C2. -/

/-- Claim C2 (amended): for every nonempty coverage matrix and chunk size at
least 1, `extract_signal` returns a signal matrix with exactly as many rows as
the input, carrying the input's row index unchanged and in order, with columns
labelled by the conditions list; the empty trailing chunk produced by
`np.split` is skipped, and no processed block is empty.  (On the empty coverage
matrix the final `np.vstack` raises instead -- see the counterexample.) -/
theorem spec_C2_signal_shape (e : Ext) (rngW : ℕ → List (List ℚ)) (df mm : DF)
    (conds : List String) (cs seed : ℕ)
    (hproj : ∀ ck w h s, (e.project ck w h s).length = ck.length)
    (hcs : 1 ≤ cs) (hne : df.rows ≠ [])
    (hidx : df.idx.length = df.rows.length) :
    ∃ out, extract_signal e rngW df mm conds cs seed = .ok out ∧
      out.idx = df.idx ∧ out.cols = conds ∧ out.rows.length = df.rows.length ∧
      ∀ b ∈ processChunks (fun j ck => e.project ck (rngW j) mm.rows seed) 0
          (npSplit cs df.rows), b ≠ [] := by
  obtain ⟨hflat, hbne⟩ := chunkList_facts cs df.rows hcs
  obtain ⟨hlen, hpne⟩ := processChunks_append_empty
    (fun j ck => e.project ck (rngW j) mm.rows seed)
    (fun j ck => hproj ck (rngW j) mm.rows seed) (chunkList cs df.rows) 0 hbne
  have hlen' : (processChunks (fun j ck => e.project ck (rngW j) mm.rows seed) 0
      (npSplit cs df.rows)).flatten.length = df.rows.length := by
    simp only [npSplit]
    rw [hlen, hflat]
  have hpe : (processChunks (fun j ck => e.project ck (rngW j) mm.rows seed) 0
      (npSplit cs df.rows)).isEmpty = false := by
    rw [List.isEmpty_eq_false]
    intro hcon
    rw [hcon] at hlen'
    simp only [List.flatten_nil, List.length_nil] at hlen'
    exact hne (List.length_eq_zero.mp hlen'.symm)
  refine ⟨⟨df.idx, conds,
    (processChunks (fun j ck => e.project ck (rngW j) mm.rows seed) 0
      (npSplit cs df.rows)).flatten⟩, ?_, rfl, rfl, hlen', ?_⟩
  · simp only [extract_signal, hpe, Bool.false_eq_true, if_false]
    rw [if_pos (by rw [hlen', hidx])]
  · simpa only [npSplit] using hpne

/-- Witness for C2: on the concrete two-bin input with chunk size 1, the run
returns the projected matrix with both rows, the original index and the given
condition labels. -/
theorem spec_C2_witness :
    (1 ≤ 1 ∧ dfTest.rows ≠ [] ∧ dfTest.idx.length = dfTest.rows.length) ∧
    ∃ out, extract_signal extTest (fun _ => [[0]]) dfTest mmTest ["background", "t"] 1 0 = .ok out ∧
      out.idx = dfTest.idx ∧ out.cols = ["background", "t"] ∧
      out.rows.length = dfTest.rows.length ∧
      ∀ b ∈ processChunks
          (fun j ck => extTest.project ck ((fun _ => [[(0 : ℚ)]]) j) mmTest.rows 0) 0
          (npSplit 1 dfTest.rows), b ≠ [] :=
  ⟨⟨by decide, by decide, by decide⟩,
    spec_C2_signal_shape extTest (fun _ => [[0]]) dfTest mmTest ["background", "t"] 1 0
      (fun _ _ _ _ => rfl) (by decide) (by decide) (by decide)⟩

/-- Counterexample for C2 as stated: on the empty coverage matrix the first
chunk is already empty, the loop breaks with nothing processed, and
`np.vstack([])` raises `ValueError` -- no signal matrix is returned. -/
theorem spec_C2_counterexample :
    extract_signal extTest (fun _ => [[0]]) (DF.mk [] ["s1"] [])
      (DF.mk ["background"] ["s1"] [[1]]) ["background"] 5 0 = .err .valueError := by
  decide

/-! Claim C9. -/

/-- Claim C9 (code bug): `extract_signal` draws each chunk's initial `W` from
the ambient global numpy random state (`np.random.uniform` with no seeding), not
from the `seed` parameter, and under `init="custom"` the solver takes that `W`
as its starting point; two runs with identical inputs and the same seed but
different ambient random states hand different initializations to the solver
and can return different signal matrices.  Here, with a projection that depends
on its initialization (as the multiplicative-update solver's output does), two
such runs on a one-bin matrix give different outputs. -/
theorem spec_C9_seed_not_reproducible :
    extract_signal extRng (fun _ => [[0]]) (DF.mk ["b1"] ["s1"] [[2]])
        (DF.mk ["background"] ["s1"] [[1]]) ["background"] 1 7 ≠
      extract_signal extRng (fun _ => [[3]]) (DF.mk ["b1"] ["s1"] [[2]])
        (DF.mk ["background"] ["s1"] [[1]]) ["background"] 1 7 := by
  decide

lemma zipWithMap {α β γ : Type} (g : α → β → γ) :
    ∀ (a : List α) (b : List β),
      List.zipWith g a b = (a.zip b).map (fun p => g p.1 p.2) := by
  intro a
  induction a with
  | nil => intro b; simp
  | cons x xs ih =>
    intro b
    cases b with
    | nil => simp
    | cons y ys => simp [ih]

/-! Claim C7. -/

/-- Claim C7: the per-replicate signal that `run_HSR_replicates` feeds into the
regression for the treatment column at position `i` is exactly the logarithm of
the specification's per-replicate specific signal: the replicate's original
coverage column minus the control signal column scaled by row 0 of the mixing
matrix at the replicate's position offset by the control-sample count, clipped
from below at `eps`. -/
theorem spec_C7_replicate_specific_signal (lg : ℚ → ℚ) (reps wmat mmat : DF)
    (ctrl : String) (nCtrl : ℕ) (eps : ℚ) (i : ℕ) (name : String) :
    repTransf lg reps wmat mmat ctrl nCtrl eps i name =
      (repSpecificSpec eps reps wmat mmat ctrl nCtrl i name).map lg := by
  have hcoef : (mmat.rows.getD 0 []).getD (i + nCtrl) 0 =
      (mmat.rows.headD []).getD (nCtrl + i) 0 := by
    rw [Nat.add_comm i nCtrl]
    cases mmat.rows <;> rfl
  have hfun : (fun p : ℚ × ℚ => max eps (p.1 - (mmat.rows.getD 0 []).getD (i + nCtrl) 0 * p.2)) =
      (fun p : ℚ × ℚ => max (p.1 - (mmat.rows.headD []).getD (nCtrl + i) 0 * p.2) eps) := by
    funext p
    rw [hcoef, max_comm]
  simp only [repTransf, repSpecific, repSpecificSpec, zipWithMap, hfun]

lemma zipWith_getElem? {f : ℚ → ℚ → ℚ} : ∀ (a b : List ℚ) (j : ℕ),
    (List.zipWith f a b)[j]? = (a[j]?).bind (fun x => (b[j]?).map (f x)) := by
  intro a
  induction a with
  | nil => intro b j; simp
  | cons x xs ih =>
    intro b j
    cases b with
    | nil => simp
    | cons y ys =>
      cases j with
      | zero => simp
      | succ j' => simpa using ih ys j'

lemma maskSel_cons (b : Bool) (ms : List Bool) (x : ℚ) (xs : List ℚ) :
    maskSel (b :: ms) (x :: xs) = (if b then [x] else []) ++ maskSel ms xs := by
  cases b <;> simp [maskSel]

lemma maskSel_congr {mask : List Bool} : ∀ {l₁ l₂ : List ℚ},
    l₁.length = l₂.length →
    (∀ j, mask.getD j false = true → l₁[j]? = l₂[j]?) →
    maskSel mask l₁ = maskSel mask l₂ := by
  induction mask with
  | nil => intro l₁ l₂ _ _; rfl
  | cons b ms ih =>
    intro l₁ l₂ hlen ha
    cases l₁ with
    | nil =>
      cases l₂ with
      | nil => rfl
      | cons y ys => simp at hlen
    | cons x xs =>
      cases l₂ with
      | nil => simp at hlen
      | cons y ys =>
        have htail : maskSel ms xs = maskSel ms ys := by
          refine ih (by simpa using hlen) ?_
          intro j hj
          have := ha (j + 1) (by simpa [List.getD_cons_succ] using hj)
          simpa using this
        cases b with
        | false => rw [maskSel_cons, maskSel_cons, htail]; simp
        | true =>
          have hxy : x = y := by
            have := ha 0 (by simp)
            simpa using this
          rw [maskSel_cons, maskSel_cons, htail, hxy]

lemma transf_maskSel_congr (lg : ℚ → ℚ) (eps : ℚ) (mask : List Bool)
    {w₁ w₂ : DF} (name : String)
    (hr : w₁.rows.length = w₂.rows.length) (hc : w₁.cols = w₂.cols)
    (ha : ∀ j, mask.getD j false = true → w₁.rows[j]? = w₂.rows[j]?) :
    maskSel mask (transfCol lg eps (colOf w₁ name)) =
      maskSel mask (transfCol lg eps (colOf w₂ name)) := by
  refine maskSel_congr (by simp [transfCol, colOf, hr]) ?_
  intro j hj
  simp only [transfCol, colOf, List.getElem?_map, hc]
  rw [ha j hj]

lemma repTransf_maskSel_congr (lg : ℚ → ℚ) (mask : List Bool)
    {p₁ p₂ w₁ w₂ : DF} (mmat : DF) (ctrl : String) (nCtrl : ℕ) (eps : ℚ)
    (i : ℕ) (name : String)
    (hwr : w₁.rows.length = w₂.rows.length) (hwc : w₁.cols = w₂.cols)
    (hwa : ∀ j, mask.getD j false = true → w₁.rows[j]? = w₂.rows[j]?)
    (hpr : p₁.rows.length = p₂.rows.length) (hpc : p₁.cols = p₂.cols)
    (hpa : ∀ j, mask.getD j false = true → p₁.rows[j]? = p₂.rows[j]?) :
    maskSel mask (repTransf lg p₁ w₁ mmat ctrl nCtrl eps i name) =
      maskSel mask (repTransf lg p₂ w₂ mmat ctrl nCtrl eps i name) := by
  refine maskSel_congr ?_ ?_
  · simp [repTransf, repSpecific, colOf, List.length_zipWith, hwr, hpr]
  · intro j hj
    simp only [repTransf, repSpecific, List.getElem?_map, zipWith_getElem?, colOf, hpc, hwc]
    rw [hpa j hj, hwa j hj]

/-! Claim C4. -/

/-- Claim C4: in both HSR variants, the double-median fit subset and the fitted
through-origin slope depend only on the mask-true bins: for any two signal
matrices (and, in the per-replicate variant, any two replicate matrices) of the
same shape that agree on every mask-true bin, the fit indices and the fitted
slope coincide, whatever the values on mask-false bins. -/
theorem spec_C4_mask_only_fit (lg : ℚ → ℚ) (eps : ℚ) (mask : List Bool)
    (w₁ w₂ p₁ p₂ mmat : DF) (ctrl : String) (nCtrl : ℕ) (i : ℕ)
    (hwr : w₁.rows.length = w₂.rows.length) (hwc : w₁.cols = w₂.cols)
    (hwa : ∀ j, mask.getD j false = true → w₁.rows[j]? = w₂.rows[j]?)
    (hpr : p₁.rows.length = p₂.rows.length) (hpc : p₁.cols = p₂.cols)
    (hpa : ∀ j, mask.getD j false = true → p₁.rows[j]? = p₂.rows[j]?) :
    (∀ cond : String,
      fitIxs (maskSel mask (transfCol lg eps (colOf w₁ ctrl)))
          (maskSel mask (transfCol lg eps (colOf w₁ cond))) =
        fitIxs (maskSel mask (transfCol lg eps (colOf w₂ ctrl)))
          (maskSel mask (transfCol lg eps (colOf w₂ cond))) ∧
      hsrSlope (maskSel mask (transfCol lg eps (colOf w₁ ctrl)))
          (maskSel mask (transfCol lg eps (colOf w₁ cond))) =
        hsrSlope (maskSel mask (transfCol lg eps (colOf w₂ ctrl)))
          (maskSel mask (transfCol lg eps (colOf w₂ cond)))) ∧
    (∀ name : String,
      fitIxs (maskSel mask (transfCol lg eps (colOf w₁ ctrl)))
          (maskSel mask (repTransf lg p₁ w₁ mmat ctrl nCtrl eps i name)) =
        fitIxs (maskSel mask (transfCol lg eps (colOf w₂ ctrl)))
          (maskSel mask (repTransf lg p₂ w₂ mmat ctrl nCtrl eps i name)) ∧
      hsrSlope (maskSel mask (transfCol lg eps (colOf w₁ ctrl)))
          (maskSel mask (repTransf lg p₁ w₁ mmat ctrl nCtrl eps i name)) =
        hsrSlope (maskSel mask (transfCol lg eps (colOf w₂ ctrl)))
          (maskSel mask (repTransf lg p₂ w₂ mmat ctrl nCtrl eps i name))) := by
  have h1 : ∀ nm : String, maskSel mask (transfCol lg eps (colOf w₁ nm)) =
      maskSel mask (transfCol lg eps (colOf w₂ nm)) :=
    fun nm => transf_maskSel_congr lg eps mask nm hwr hwc hwa
  have h2 : ∀ nm : String, maskSel mask (repTransf lg p₁ w₁ mmat ctrl nCtrl eps i nm) =
      maskSel mask (repTransf lg p₂ w₂ mmat ctrl nCtrl eps i nm) :=
    fun nm => repTransf_maskSel_congr lg mask mmat ctrl nCtrl eps i nm hwr hwc hwa hpr hpc hpa
  constructor
  · intro cond
    rw [h1 ctrl, h1 cond]
    exact ⟨rfl, rfl⟩
  · intro name
    rw [h1 ctrl, h2 name]
    exact ⟨rfl, rfl⟩

lemma maskTF_true {j : ℕ} (hj : ([true, false] : List Bool).getD j false = true) :
    j = 0 := by
  match j with
  | 0 => rfl
  | 1 => simp only [List.getD_cons_succ, List.getD_cons_zero] at hj; exact absurd hj (by simp)
  | j + 2 =>
    rw [List.getD_eq_default _ _ (by simp)] at hj
    exact absurd hj (by simp)

/-- A signal matrix agreeing with `wTest` on the mask-true bin 0 but arbitrary
on the masked-out bin 1. -/
def wPerturbed : DF := ⟨["b1", "b2"], ["ctrl", "t"], [[2, 3], [9, 7]]⟩

/-- Witness for C4: `wTest` and `wPerturbed` differ only on the masked-out
second bin, and the fitted slope of the pooled variant (and of the
per-replicate variant, perturbing the replicate matrices the same way)
coincides. -/
theorem spec_C4_witness :
    wTest.rows.length = wPerturbed.rows.length ∧
    (hsrSlope (maskSel [true, false] (transfCol (fun x => x) 1 (colOf wTest "ctrl")))
        (maskSel [true, false] (transfCol (fun x => x) 1 (colOf wTest "t"))) =
      hsrSlope (maskSel [true, false] (transfCol (fun x => x) 1 (colOf wPerturbed "ctrl")))
        (maskSel [true, false] (transfCol (fun x => x) 1 (colOf wPerturbed "t")))) :=
  ⟨rfl,
    ((spec_C4_mask_only_fit (fun x => x) 1 [true, false] wTest wPerturbed wTest wPerturbed
      mmTest "ctrl" 1 0 rfl rfl
      (fun j hj => by rw [maskTF_true hj]; rfl)
      rfl rfl
      (fun j hj => by rw [maskTF_true hj]; rfl)).1 "t").2⟩

lemma expC_pos : ∀ x : ℚ, 0 < expC x := by
  intro x
  unfold expC
  split_ifs with h
  · linarith
  · exact div_pos one_pos (by linarith)

lemma expC_mono : Monotone expC := by
  intro a b hab
  unfold expC
  split_ifs with ha hb hb
  · linarith
  · exact absurd (le_trans ha hab) hb
  · have ha' : a < 0 := not_le.mp ha
    have h1 : (0 : ℚ) < 1 - a := by linarith
    have h2 : 1 / (1 - a) ≤ 1 := by
      rw [div_le_one h1]
      linarith
    linarith
  · have hb' : b < 0 := not_le.mp hb
    exact one_div_le_one_div_of_le (by linarith) (by linarith)

lemma expC_lgC : ∀ x : ℚ, 0 < x → expC (lgC x) = x := by
  intro x hx
  unfold lgC expC
  split_ifs with h1 h2 h2
  · ring
  · exact absurd (by linarith : (0 : ℚ) ≤ x - 1) h2
  · have hx1 : x < 1 := not_le.mp h1
    have : (1 : ℚ) < 1 / x := one_lt_one_div hx hx1
    exact absurd h2 (by push_neg; linarith)
  · have harg : (1 : ℚ) - (1 - 1 / x) = 1 / x := by ring
    rw [harg, one_div_one_div]

/-! Claim C5. -/

/-- Claim C5: in `run_HSR` every value entering the logarithm is floored at
`eps` (for positive `eps` the argument is strictly positive and at least `eps`,
so `log 0` is never taken, and the floored transform is what enters the
transformed column); every clamped prediction is at least `log(1/2)`; hence
every entry of the fitted-baseline column `exp(prediction)` is at least `1/2`,
so the normalized value never divides by a near-zero baseline.  The last
conjunct records that the columns of `run_HSR` are exactly the `hsrPair`
columns the bounds are stated about. -/
theorem spec_C5_floor_and_clamp (lg expf : ℚ → ℚ) (wmat : DF) (mask : List Bool)
    (conds : List String) (eps : ℚ)
    (heps : 0 < eps) (hmono : Monotone expf)
    (hinv : ∀ x : ℚ, 0 < x → expf (lg x) = x) :
    (∀ name : String, ∀ x ∈ colOf wmat name,
      0 < max eps x ∧ eps ≤ max eps x ∧
        lg (max eps x) ∈ transfCol lg eps (colOf wmat name)) ∧
    (∀ (β : ℚ) (ct : List ℚ), ∀ p ∈ logPredCol lg β ct, lg (1 / 2) ≤ p) ∧
    (∀ ct tt : List ℚ, ∀ v ∈ (hsrPair lg expf ct tt mask).2, 1 / 2 ≤ v) ∧
    (run_HSR lg expf wmat mask conds eps).cols =
      (conds.tail.map (fun c =>
        let p := hsrPair lg expf (transfCol lg eps (colOf wmat (conds.headD "")))
          (transfCol lg eps (colOf wmat c)) mask
        [p.1, p.2])).flatten := by
  have hpred : ∀ (β : ℚ) (ct : List ℚ), ∀ p ∈ logPredCol lg β ct, lg (1 / 2) ≤ p := by
    intro β ct p hp
    rcases List.mem_map.mp hp with ⟨x, _, rfl⟩
    exact le_max_right _ _
  refine ⟨?_, hpred, ?_, rfl⟩
  · intro name x hx
    refine ⟨lt_of_lt_of_le heps (le_max_left _ _), le_max_left _ _, ?_⟩
    exact List.mem_map_of_mem (fun y => lg (max eps y)) hx
  · intro ct tt v hv
    rcases List.mem_map.mp hv with ⟨p, hp, rfl⟩
    have h1 : lg (1 / 2) ≤ p := hpred _ _ p hp
    calc (1 : ℚ) / 2 = expf (lg (1 / 2)) := (hinv (1 / 2) (by norm_num)).symm
      _ ≤ expf p := hmono h1

/-- Witness for C5: with the concrete monotone positive pair `lgC`/`expC`, the
first entry of the fitted-baseline column on `wTest` is at least `1/2`. -/
theorem spec_C5_witness :
    (0 : ℚ) < 1 ∧
    (1 : ℚ) / 2 ≤ ((hsrPair lgC expC (transfCol lgC 1 (colOf wTest "ctrl"))
      (transfCol lgC 1 (colOf wTest "t")) [true, true]).2).getD 0 0 :=
  ⟨by decide,
    (spec_C5_floor_and_clamp lgC expC wTest [true, true] ["ctrl", "t"] 1 (by decide)
      expC_mono expC_lgC).2.2.1 _ _ _
      (by
        rw [List.getD_eq_getElem _ _ (by decide)]
        exact List.getElem_mem (by decide))⟩

lemma forall_mem_zipWith {α β γ : Type} (P : γ → Prop) (g : α → β → γ)
    (hg : ∀ x y, P (g x y)) :
    ∀ (a : List α) (b : List β), ∀ z ∈ List.zipWith g a b, P z := by
  intro a
  induction a with
  | nil => intro b z hz; simp at hz
  | cons x xs ih =>
    intro b z hz
    cases b with
    | nil => simp at hz
    | cons y ys =>
      rcases List.mem_cons.mp hz with rfl | hz
      · exact hg x y
      · exact ih ys z hz

lemma headD_nonneg {vals : List ℚ} (h : ∀ y ∈ vals, 0 ≤ y) : 0 ≤ vals.headD 0 := by
  cases vals with
  | nil => simp
  | cons v vs => exact h v (List.mem_cons_self v vs)

lemma setSlice_nonneg {row vals r : List ℚ} {ix c : ℕ}
    (h : setSlice row ix c vals = .ok r)
    (hrow : ∀ y ∈ row, 0 ≤ y) (hvals : ∀ y ∈ vals, 0 ≤ y) :
    ∀ x ∈ r, 0 ≤ x := by
  simp only [setSlice] at h
  split_ifs at h with h1 h2
  · injection h with h'
    subst h'
    intro x hx
    rcases List.mem_append.mp hx with hx' | hx'
    · rcases List.mem_append.mp hx' with h'' | h''
      · exact hrow x (List.mem_of_mem_take h'')
      · exact hvals x h''
    · exact hrow x (List.mem_of_mem_drop hx')
  · injection h with h'
    subst h'
    intro x hx
    rcases List.mem_append.mp hx with hx' | hx'
    · rcases List.mem_append.mp hx' with h'' | h''
      · exact hrow x (List.mem_of_mem_take h'')
      · rw [List.eq_of_mem_replicate h'']
        exact headD_nonneg hvals
    · exact hrow x (List.mem_of_mem_drop hx')

lemma buildSpecRows_nonneg {e : Ext} {resid : List (List ℚ)} {width : ℕ}
    (hS : ∀ b, ∀ x ∈ e.rank1H b, 0 ≤ x) :
    ∀ (cs : List ℕ) (ix : ℕ) (rows : List (List ℚ)),
      buildSpecRows e resid width ix cs = .ok rows →
      ∀ r ∈ rows, ∀ x ∈ r, 0 ≤ x := by
  intro cs
  induction cs with
  | nil =>
    intro ix rows h
    injection h with h'
    subst h'
    simp
  | cons c cs ih =>
    intro ix rows h
    simp only [buildSpecRows] at h
    cases hs : setSlice (List.replicate width 0) ix c (e.rank1H (sliceCols resid ix c)) with
    | err er => rw [hs] at h; simp only [pyBind_err] at h; cases h
    | ok row =>
      rw [hs] at h
      simp only [pyBind_ok] at h
      cases hrest : buildSpecRows e resid width (ix + c) cs with
      | err er => rw [hrest] at h; simp only [pyBind_err] at h; cases h
      | ok rest =>
        rw [hrest] at h
        simp only [pyBind_ok] at h
        injection h with h'
        subst h'
        intro r hr
        rcases List.mem_cons.mp hr with rfl | hr
        · exact setSlice_nonneg hs (fun y hy => by rw [List.eq_of_mem_replicate hy]) (hS _)
        · exact ih (ix + c) rest hrest r hr

lemma processChunks_mem {f : ℕ → List (List ℚ) → List (List ℚ)} :
    ∀ (cks : List (List (List ℚ))) (j : ℕ) (b : List (List ℚ)),
      b ∈ processChunks f j cks → ∃ j' ck, ck ∈ cks ∧ b = f j' ck := by
  intro cks
  induction cks with
  | nil => intro j b hb; simp [processChunks] at hb
  | cons c cks ih =>
    intro j b hb
    simp only [processChunks] at hb
    split_ifs at hb with hc
    · simp at hb
    · rcases List.mem_cons.mp hb with rfl | hb
      · exact ⟨j, c, List.mem_cons_self c cks, rfl⟩
      · obtain ⟨j', ck, hck, rfl⟩ := ih (j + 1) b hb
        exact ⟨j', ck, List.mem_cons_of_mem c hck, rfl⟩

/-! Claim C6. -/

/-- Claim C6: every stage's output is elementwise non-negative.  The residual
fed to the specific-signal extraction is clipped at zero; the assembled mixing
matrix is non-negative whenever the external factorization coefficient rows are
(scikit-learn's NMF guarantee); the projected signal matrix is non-negative
whenever the frozen-factor chunk solves are; and both HSR output columns per
condition -- an exponential and an exponential of a clamped prediction -- are
non-negative because the exponential is positive. -/
theorem spec_C6_nonneg (e : Ext) (lg expf : ℚ → ℚ)
    (hH : ∀ b, ∀ x ∈ e.fitH b, 0 ≤ x)
    (hP : ∀ b wv, ∀ x ∈ e.propW b wv, 0 ≤ x)
    (hS : ∀ b, ∀ x ∈ e.rank1H b, 0 ≤ x)
    (hprojn : ∀ ck w h s, ∀ r ∈ e.project ck w h s, ∀ x ∈ r, 0 ≤ x)
    (hexp : ∀ x : ℚ, 0 < expf x) :
    (∀ (train : List (List ℚ)) (wu bg : List ℚ),
      ∀ r ∈ specificDataMat train wu bg, ∀ x ∈ r, 0 ≤ x) ∧
    (∀ df conds countsRef τ n seed mm,
      extract_mixing_matrix e df conds countsRef τ n seed = .ok mm →
      ∀ r ∈ mm.rows, ∀ x ∈ r, 0 ≤ x) ∧
    (∀ rngW df mmat conds cs seed out,
      extract_signal e rngW df mmat conds cs seed = .ok out →
      ∀ r ∈ out.rows, ∀ x ∈ r, 0 ≤ x) ∧
    (∀ ct tt mask,
      (∀ v ∈ (hsrPair lg expf ct tt mask).1, 0 ≤ v) ∧
      (∀ v ∈ (hsrPair lg expf ct tt mask).2, 0 ≤ v)) := by
  refine ⟨?_, ?_, ?_, ?_⟩
  · intro train wu bg r hr x hx
    simp only [specificDataMat, List.mem_map] at hr
    obtain ⟨p, _, rfl⟩ := hr
    exact forall_mem_zipWith (0 ≤ ·) _ (fun a b => le_max_right _ 0) p.1 bg x hx
  · intro df conds countsRef τ n seed mm hok
    simp only [extract_mixing_matrix] at hok
    cases htr : trainData e df (conds.headD "") τ n seed with
    | err er => rw [htr] at hok; simp only [pyBind_err] at hok; cases hok
    | ok train =>
      rw [htr] at hok
      simp only [pyBind_ok] at hok
      cases hrow0 : setSlice (List.replicate ((conds.map countsRef).sum) 0) 0
          ((conds.map countsRef).sum)
          (e.fitH (selectCols train (colPos df.cols fun c => strStarts c (conds.headD ""))) ++
            e.propW (selectCols train (colPos df.cols fun c => !strStarts c (conds.headD "")))
              (e.fitW (selectCols train (colPos df.cols fun c => strStarts c (conds.headD ""))))) with
      | err er => rw [hrow0] at hok; simp only [pyBind_err] at hok; cases hok
      | ok row0 =>
        rw [hrow0] at hok
        simp only [pyBind_ok] at hok
        cases hrest : buildSpecRows e
            (specificDataMat train
              (e.fitW (selectCols train (colPos df.cols fun c => strStarts c (conds.headD ""))))
              (e.fitH (selectCols train (colPos df.cols fun c => strStarts c (conds.headD ""))) ++
                e.propW (selectCols train (colPos df.cols fun c => !strStarts c (conds.headD "")))
                  (e.fitW (selectCols train (colPos df.cols fun c => strStarts c (conds.headD ""))))))
            ((conds.map countsRef).sum) ((conds.map countsRef).headD 0)
            (conds.map countsRef).tail with
        | err er => rw [hrest] at hok; simp only [pyBind_err] at hok; cases hok
        | ok rest =>
          rw [hrest] at hok
          simp only [pyBind_ok] at hok
          split_ifs at hok with hw
          injection hok with h'
          subst h'
          intro r hr
          rcases List.mem_cons.mp hr with rfl | hr
          · refine setSlice_nonneg hrow0 (fun y hy => by rw [List.eq_of_mem_replicate hy]) ?_
            intro y hy
            rcases List.mem_append.mp hy with hy | hy
            · exact hH _ y hy
            · exact hP _ _ y hy
          · exact buildSpecRows_nonneg hS _ _ rest hrest r hr
  · intro rngW df mmat conds cs seed out hok
    simp only [extract_signal] at hok
    split_ifs at hok with h1 h2
    injection hok with h'
    subst h'
    intro r hr x hx
    obtain ⟨blk, hblk, hrblk⟩ := List.mem_flatten.mp hr
    obtain ⟨j', ck, _, rfl⟩ := processChunks_mem _ _ _ hblk
    exact hprojn ck (rngW j') mmat.rows seed r hrblk x hx
  · intro ct tt mask
    constructor
    · intro v hv
      simp only [hsrPair] at hv
      exact forall_mem_zipWith (0 ≤ ·) _ (fun a b => le_of_lt (hexp _)) tt _ v hv
    · intro v hv
      simp only [hsrPair] at hv
      rcases List.mem_map.mp hv with ⟨p, _, rfl⟩
      exact le_of_lt (hexp p)

/-- A variant of `extTest` whose chunk projection also returns all-ones output
(so its outputs are non-negative, as scikit-learn's are). -/
def extPos : Ext :=
  { extTest with project := fun ck _ _ _ => ck.map (fun r => r.map (fun _ => 1)) }

lemma ones_nonneg (l : List ℚ) : ∀ x ∈ l.map (fun _ => (1 : ℚ)), 0 ≤ x := by
  intro x hx
  rcases List.mem_map.mp hx with ⟨y, _, rfl⟩
  exact zero_le_one

/-- Witness for C6: with the all-ones external routines and the positive `expC`,
the mixing matrix of the concrete run is elementwise non-negative. -/
theorem spec_C6_witness :
    (∀ x : ℚ, 0 < expC x) ∧ ∀ r ∈ mmTest.rows, ∀ x ∈ r, 0 ≤ x :=
  ⟨expC_pos,
    (spec_C6_nonneg extPos lgC expC
      (fun b => ones_nonneg (b.headD []))
      (fun b wv => ones_nonneg (b.headD []))
      (fun b => ones_nonneg (b.headD []))
      (fun ck w h s r hr x hx => by
        rcases List.mem_map.mp hr with ⟨r₀, _, rfl⟩
        exact ones_nonneg r₀ x hx)
      expC_pos).2.1 dfTest ["ctrl", "t"] cfTest 1 1 0 mmTest (by decide)⟩

end Decoden
